import Mathlib

/-!
Verification of the e-Fuse bring-up routine of the bootrom repository
(src/chips/es3tsb/src/es3_efuse.c) against its natural-language
specification.

The C source is shallowly embedded: byte buffers become `List Nat` with
every element `< 256`; 32-bit registers become `Nat` with explicit
truncation; the word-at-a-time accesses of the C code are modelled as
little-endian recombination of the underlying bytes (the chip is a
little-endian ARM part).  External collaborators that are not part of
the two source files (register access, the hash primitive, the error
codes) are modelled from the spec and marked as such in doc comments.
-/

set_option maxRecDepth 100000

namespace Bootrom

/-! ### Specification-side bit counting -/

/-- Fuel-indexed binary digit sum; structural so that the kernel can
evaluate it.  `pcFuel f n` is the number of set bits of `n` provided
`n ≤ f`. -/
def pcFuel : Nat → Nat → Nat
  | 0, _ => 0
  | _ + 1, 0 => 0
  | f + 1, n + 1 => (n + 1) % 2 + pcFuel f ((n + 1) / 2)

/-- The number of set bits (Hamming weight) of a natural number. -/
def pc (n : Nat) : Nat := pcFuel n n

/-- The number of set bits in a byte buffer (the mathematical meaning of
the C `count_ones`). -/
def bitCount (l : List Nat) : Nat := (l.map pc).sum

theorem pcFuel_zero (f : Nat) : pcFuel f 0 = 0 := by
  cases f <;> rfl

theorem pcFuel_fuel_irrel (f : Nat) : ∀ g n, n ≤ f → n ≤ g → pcFuel f n = pcFuel g n := by
  induction f with
  | zero =>
    intro g n hf _
    have : n = 0 := Nat.le_zero.mp hf
    subst this
    rw [pcFuel_zero, pcFuel_zero]
  | succ f ih =>
    intro g n hf hg
    cases n with
    | zero => rw [pcFuel_zero, pcFuel_zero]
    | succ m =>
      cases g with
      | zero => exact absurd hg (by omega)
      | succ g =>
        show (m + 1) % 2 + pcFuel f ((m + 1) / 2) = (m + 1) % 2 + pcFuel g ((m + 1) / 2)
        have hhalf : (m + 1) / 2 ≤ m := by omega
        rw [ih g ((m + 1) / 2) (by omega) (by omega)]

theorem pc_step (n : Nat) : pc n = n % 2 + pc (n / 2) := by
  cases n with
  | zero => rfl
  | succ m =>
    show pcFuel (m + 1) (m + 1) = (m + 1) % 2 + pcFuel ((m + 1) / 2) ((m + 1) / 2)
    show (m + 1) % 2 + pcFuel m ((m + 1) / 2) = _
    rw [pcFuel_fuel_irrel m ((m + 1) / 2) ((m + 1) / 2) (by omega) (by omega)]

theorem pc_zero : pc 0 = 0 := rfl

/-- Splitting a number at a power-of-two boundary splits its bit count. -/
theorem pc_split (k : Nat) : ∀ a b, a < 2 ^ k → pc (a + 2 ^ k * b) = pc a + pc b := by
  induction k with
  | zero =>
    intro a b ha
    have : a = 0 := by omega
    subst this
    simp [pc_zero]
  | succ k ih =>
    intro a b ha
    have h1 : a + 2 ^ (k + 1) * b = a % 2 + 2 * (a / 2 + 2 ^ k * b) := by
      have := Nat.mod_add_div a 2
      ring_nf
      omega
    rw [h1, pc_step]
    have hmod : (a % 2 + 2 * (a / 2 + 2 ^ k * b)) % 2 = a % 2 := by omega
    have hdiv : (a % 2 + 2 * (a / 2 + 2 ^ k * b)) / 2 = a / 2 + 2 ^ k * b := by omega
    rw [hmod, hdiv, ih (a / 2) b (by omega), pc_step a]
    omega

/-! ### The C bit-counting code (es3_efuse.c, count_ones) -/

/-- Mask values used by count_ones (es3_efuse.c lines 52-60). -/
def MASK8_1S : Nat := 0x55
def MASK8_2S : Nat := 0x33
def MASK8_4S : Nat := 0x0f
def MASK32_1S : Nat := 0x55555555
def MASK32_2S : Nat := 0x33333333
def MASK32_4S : Nat := 0x0f0f0f0f
def MASK32_8S : Nat := 0x00ff00ff
def MASK32_16S : Nat := 0x0000ffff

/-- Little-endian recombination of four bytes into the 32-bit value that
the C code reads through a `uint32_t *` cast. -/
def le32 (b0 b1 b2 b3 : Nat) : Nat := b0 + 2 ^ 8 * b1 + 2 ^ 16 * b2 + 2 ^ 24 * b3

/-- The 32-bit SWAR popcount block of count_ones (lines 197-216), with
uint32 wraparound made explicit after each addition. -/
def popc32 (w : Nat) : Nat :=
  let x1 := ((w &&& MASK32_1S) + ((w >>> 1) &&& MASK32_1S)) % 2 ^ 32
  let x2 := ((x1 &&& MASK32_2S) + ((x1 >>> 2) &&& MASK32_2S)) % 2 ^ 32
  let x3 := ((x2 &&& MASK32_4S) + ((x2 >>> 4) &&& MASK32_4S)) % 2 ^ 32
  let x4 := ((x3 &&& MASK32_8S) + ((x3 >>> 8) &&& MASK32_8S)) % 2 ^ 32
  ((x4 + (x4 >>> 16)) % 2 ^ 32) &&& MASK32_16S

/-- The per-byte popcount block of count_ones (lines 221-234); uint8
subtraction and storage wraparound made explicit. -/
def popc8 (b : Nat) : Nat :=
  let x1 := (b + 256 - ((b >>> 1) &&& MASK8_1S)) % 256
  let x2 := ((x1 &&& MASK8_2S) + ((x1 >>> 2) &&& MASK8_2S)) % 256
  (x2 + (x2 >>> 4)) &&& MASK8_4S

/-- count_ones (es3_efuse.c lines 189-238): 4-byte chunks as far as
possible, then the remaining bytes one at a time.  The buffer/length
pair of the C signature is the list; its length is `len`. -/
def count_ones : List Nat → Nat
  | b0 :: b1 :: b2 :: b3 :: rest => popc32 (le32 b0 b1 b2 b3) + count_ones rest
  | rest => (rest.map popc8).sum

/-- valid_hamming_weight (es3_efuse.c lines 254-262). -/
def valid_hamming_weight (l : List Nat) : Bool :=
  count_ones l == 0 || count_ones l == l.length * 8 / 2

/-! ### is_buf_const (es3_efuse.c lines 274-294) -/

/-- The uint32 filled with four copies of `val` (lines 275-277),
built exactly as the C code does. -/
def val32 (val : Nat) : Nat :=
  let v1 := (val ||| (val <<< 8)) % 2 ^ 32
  (v1 ||| (v1 <<< 16)) % 2 ^ 32

/-- The two loops of is_buf_const: words are compared while more than
four bytes remain (strict `size > sizeof(uint32_t)`), then the last at
most four bytes are compared individually. -/
def is_buf_const_go (v32 val : Nat) : List Nat → Bool
  | b0 :: b1 :: b2 :: b3 :: b4 :: rest =>
      if le32 b0 b1 b2 b3 == v32 then is_buf_const_go v32 val (b4 :: rest) else false
  | l => l.all fun b => b == val

/-- is_buf_const (es3_efuse.c lines 274-294). -/
def is_buf_const (l : List Nat) (val : Nat) : Bool :=
  is_buf_const_go (val32 val) val l

/-! ### External collaborators, modelled from the spec -/

/-- Modelled from the spec: the error codes of error.h (not under src/).
The spec's error taxonomy (section 7) lists EccError, BadVendorId,
BadProductId, BadSecretField, EndpointIdWriteError as mutually exclusive
codes, plus the OK state the caller sees when nothing failed. -/
inductive BRE where
  | OK
  | EFUSE_ECC
  | EFUSE_BAD_ARA_VID
  | EFUSE_BAD_ARA_PID
  | EFUSE_BAD_IMS
  | EFUSE_ENDPOINT_ID_WRITE
deriving DecidableEq, Repr

/-- Observable interactions of efuse_init with the peripheral-access
collaborator: which e-Fuse fields are read and which DME attribute
writes are attempted. -/
inductive Event where
  | readEcc
  | readVid
  | readPid
  | readIms
  | writeAttr (attr : Nat) (value : Nat)
deriving DecidableEq, Repr

/-- Modelled from the spec: HASH_DIGEST_SIZE of crypto.h (not under
src/).  The code comment names sha256, whose digest is 32 bytes, and the
spec says the primitive finalizes to a fixed-size digest. -/
def HASH_DIGEST_SIZE : Nat := 32

/-- Modelled from the spec: the hash collaborator of crypto.h (not under
src/) exposes start/update/finalize over byte strings, where update
feeds bytes incrementally (any chunking).  A whole session is therefore
the abstract map `H` applied to the concatenation of all fed bytes;
hash_final writes the digest into a HASH_DIGEST_SIZE-byte buffer. -/
def hashFinal (H : List Nat → List Nat) (fed : List Nat) : List Nat :=
  ((H fed).map fun b => b % 256) ++
    List.replicate (HASH_DIGEST_SIZE - (H fed).length) 0 |>.take HASH_DIGEST_SIZE

/-- The 32-bit word the C code reads at byte offset `4*i` of the IMS
buffer through the `uint32_t *pims` cast (little-endian). -/
def wordAt (l : List Nat) (i : Nat) : Nat :=
  le32 (l.getD (4 * i) 0) (l.getD (4 * i + 1) 0) (l.getD (4 * i + 2) 0) (l.getD (4 * i + 3) 0)

/-- The bytes fed to the first hash session (es3_efuse.c lines 340-345):
the loop runs i = 0..3, XORs word i of the IMS with 0x3d3d3d3d, and
passes `hash_update((unsigned char *)&temp, 1)` - a length of ONE byte,
so only the least-significant (first in memory) byte of each word is
fed. -/
def derive_fed1 (ims : List Nat) : List Nat :=
  [(wordAt ims 0 ^^^ 0x3d3d3d3d) % 256,
   (wordAt ims 1 ^^^ 0x3d3d3d3d) % 256,
   (wordAt ims 2 ^^^ 0x3d3d3d3d) % 256,
   (wordAt ims 3 ^^^ 0x3d3d3d3d) % 256]

/-- Little-endian value of a byte list (memcpy of the digest prefix onto
the `large_uint` union, es3_efuse.c lines 63-69 and 360). -/
def toLEbytes (l : List Nat) : Nat := l.foldr (fun b acc => b + 256 * acc) 0

/-- The non-simulation endpoint-ID derivation of get_endpoint_id
(es3_efuse.c lines 326-361), parameterized by the abstract hash `H`:
session 1 feeds the four single bytes of derive_fed1; session 2 feeds
the whole Y1 digest then eight times one byte of temp = 0x01010101;
session 3 feeds the Z0 digest; the first 8 digest bytes land in the
64-bit union. -/
def derive_endpoint_id (H : List Nat → List Nat) (ims : List Nat) : Nat :=
  let Y1 := hashFinal H (derive_fed1 ims)
  let Z0 := hashFinal H (Y1 ++ List.replicate 8 (0x01010101 % 256))
  let EP_UID := hashFinal H Z0
  toLEbytes (EP_UID.take 8)

/-- The derivation chain as the spec states it (spec section 4.4):
Y1 = Hash(secret[0:16] XOR sixteen bytes of 0x3D), Z0 = Hash(Y1 ||
thirty-two bytes of 0x01), EP_UID = Hash(Z0), result = first 8 bytes of
EP_UID.  Stated for refinement comparison with derive_endpoint_id. -/
def derive_endpoint_id_spec (H : List Nat → List Nat) (secret : List Nat) : Nat :=
  let Y1 := hashFinal H ((secret.take 16).map fun b => b ^^^ 0x3d)
  let Z0 := hashFinal H (Y1 ++ List.replicate 32 0x01)
  let EP_UID := hashFinal H Z0
  toLEbytes (EP_UID.take 8)

/-- IMS is 35 bytes long, but boot ROM only cares about the first 32
bytes (es3_efuse.c line 74). -/
def IMS_MEANINGFUL_LENGTH : Nat := 32

/-- Result of get_endpoint_id: the returned flag, the value left in the
caller's 64-bit union, the last-error state, and the peripheral events. -/
structure EpResult where
  ret : Bool
  quad : Nat
  lastError : BRE
  events : List Event

/-- get_endpoint_id (es3_efuse.c lines 308-367).  `sim` is the
_SIMULATION build flag (spec section 9 says to model it as an injectable
configuration flag), `H` the abstract hash, `le0` the last-error state
on entry. -/
def get_endpoint_id (sim : Bool) (H : List Nat → List Nat) (imsRaw : List Nat)
    (le0 : BRE) : EpResult :=
  let ims := imsRaw.take IMS_MEANINGFUL_LENGTH
  if is_buf_const ims 0 = false then
    if valid_hamming_weight ims = false then
      { ret := false, quad := 0, lastError := BRE.EFUSE_BAD_IMS, events := [Event.readIms] }
    else
      let quad := if sim then 0x12345678 + 2 ^ 32 * 0x9ABCDEF0 else derive_endpoint_id H ims
      { ret := true, quad := quad, lastError := le0, events := [Event.readIms] }
  else
    { ret := false, quad := 0, lastError := le0, events := [Event.readIms] }

/-- Modelled from the spec: the hardware state and external collaborator
behaviour that efuse_init consumes through tsb_scm.h / tsb_isaa.h /
chipapi.h (none under src/): the ECC-status register and its error-bit
mask, the VID/PID fuse values, the raw IMS bytes, the result codes of
chip_unipro_attr_write, the two DME attribute ids, the simulation build
flag and the hash primitive. -/
structure Hw where
  eccerror : Nat
  eccMask : Nat
  vid : Nat
  pid : Nat
  ims : List Nat
  attrWriteRc : Nat → Nat → Nat
  attrL : Nat
  attrH : Nat
  sim : Bool
  hash : List Nat → List Nat

/-- The four bytes of a 32-bit value in memory order (little-endian), as
count_ones sees them when efuse_init passes `(uint8_t *)&ara_vid`. -/
def le4 (v : Nat) : List Nat :=
  [v % 256, v / 2 ^ 8 % 256, v / 2 ^ 16 % 256, v / 2 ^ 24 % 256]

/-- Result of efuse_init: return value, last-error state, event trace. -/
structure InitResult where
  ret : Int
  lastError : BRE
  events : List Event

/-- efuse_init (es3_efuse.c lines 91-171), over the modelled hardware
state, starting from last-error state `le0`. -/
def efuse_init (hw : Hw) (le0 : BRE) : InitResult :=
  if hw.eccerror &&& hw.eccMask ≠ 0 then
    { ret := -1, lastError := BRE.EFUSE_ECC, events := [Event.readEcc] }
  else if valid_hamming_weight (le4 hw.vid) = false then
    { ret := -1, lastError := BRE.EFUSE_BAD_ARA_VID,
      events := [Event.readEcc, Event.readVid] }
  else if valid_hamming_weight (le4 hw.pid) = false then
    { ret := -1, lastError := BRE.EFUSE_BAD_ARA_PID,
      events := [Event.readEcc, Event.readVid, Event.readPid] }
  else
    let pre := [Event.readEcc, Event.readVid, Event.readPid]
    let ep := get_endpoint_id hw.sim hw.hash hw.ims le0
    if ep.ret = false then
      if ep.lastError ≠ BRE.OK then
        { ret := -1, lastError := ep.lastError, events := pre ++ ep.events }
      else
        { ret := 0, lastError := ep.lastError, events := pre ++ ep.events }
    else
      let low := ep.quad % 2 ^ 32
      let high := ep.quad / 2 ^ 32 % 2 ^ 32
      if hw.attrWriteRc hw.attrL low ≠ 0 then
        { ret := -1, lastError := BRE.EFUSE_ENDPOINT_ID_WRITE,
          events := pre ++ ep.events ++ [Event.writeAttr hw.attrL low] }
      else if hw.attrWriteRc hw.attrH high ≠ 0 then
        { ret := -1, lastError := BRE.EFUSE_ENDPOINT_ID_WRITE,
          events := pre ++ ep.events ++
            [Event.writeAttr hw.attrL low, Event.writeAttr hw.attrH high] }
      else
        { ret := 0, lastError := ep.lastError,
          events := pre ++ ep.events ++
            [Event.writeAttr hw.attrL low, Event.writeAttr hw.attrH high] }

/-! ### Correctness of the SWAR popcount -/

/-- The generic SWAR step `x = (x & m) + ((x >> s) & m)` shared by the
stages of count_ones. -/
def stepF (m s x : Nat) : Nat := (x &&& m) + ((x >>> s) &&& m)

theorem land_split (k a b m n : Nat) (ha : a < 2 ^ k) (hm : m < 2 ^ k) :
    (a + 2 ^ k * b) &&& (m + 2 ^ k * n) = (a &&& m) + 2 ^ k * (b &&& n) := by
  have hAM : (a &&& m) < 2 ^ k := Nat.and_lt_two_pow a hm
  apply Nat.eq_of_testBit_eq
  intro j
  rw [Nat.add_comm a (2 ^ k * b), Nat.add_comm m (2 ^ k * n),
    Nat.add_comm (a &&& m) (2 ^ k * (b &&& n))]
  rw [Nat.testBit_and, Nat.testBit_mul_pow_two_add b ha j,
    Nat.testBit_mul_pow_two_add n hm j, Nat.testBit_mul_pow_two_add (b &&& n) hAM j]
  by_cases hj : j < k
  · simp [hj, Nat.testBit_and]
  · simp [hj, Nat.testBit_and]

theorem shift_split (k s a b : Nat) (hsk : s ≤ k) :
    (a + 2 ^ k * b) >>> s = a >>> s + 2 ^ (k - s) * b := by
  rw [Nat.shiftRight_eq_div_pow, Nat.shiftRight_eq_div_pow]
  have h2 : 2 ^ k = 2 ^ s * 2 ^ (k - s) := by
    rw [← pow_add]
    congr 1
    omega
  rw [h2, Nat.mul_assoc]
  exact Nat.add_mul_div_left a (2 ^ (k - s) * b) (Nat.two_pow_pos s)

theorem stepF_le (m s x : Nat) : stepF m s x ≤ 2 * m := by
  have h1 : x &&& m ≤ m := Nat.and_le_right
  have h2 : (x >>> s) &&& m ≤ m := Nat.and_le_right
  unfold stepF
  omega

theorem stepF_split (k s m a b : Nat) (hs : 0 < s) (hsk : s ≤ k)
    (hm : m < 2 ^ (k - s)) (ha : a < 2 ^ k) :
    stepF (m + 2 ^ k * m) s (a + 2 ^ k * b) = stepF m s a + 2 ^ k * stepF m s b := by
  have hmk : m < 2 ^ k :=
    lt_of_lt_of_le hm (Nat.pow_le_pow_right (by omega) (by omega))
  have h1 : (a + 2 ^ k * b) &&& (m + 2 ^ k * m) = (a &&& m) + 2 ^ k * (b &&& m) :=
    land_split k a b m m ha hmk
  have hshift : (a + 2 ^ k * b) >>> s = a >>> s + 2 ^ (k - s) * b :=
    shift_split k s a b hsk
  have hpow : 2 ^ (k - s) * 2 ^ s = 2 ^ k := by
    rw [← pow_add]
    congr 1
    omega
  have hre : a >>> s + 2 ^ (k - s) * b
      = (a >>> s + 2 ^ (k - s) * (b % 2 ^ s)) + 2 ^ k * (b / 2 ^ s) := by
    calc a >>> s + 2 ^ (k - s) * b
        = a >>> s + 2 ^ (k - s) * (b % 2 ^ s + 2 ^ s * (b / 2 ^ s)) := by
          rw [Nat.mod_add_div b (2 ^ s)]
      _ = (a >>> s + 2 ^ (k - s) * (b % 2 ^ s)) + (2 ^ (k - s) * 2 ^ s) * (b / 2 ^ s) := by
          ring
      _ = _ := by rw [hpow]
  have hlowa : a >>> s < 2 ^ (k - s) := by
    rw [Nat.shiftRight_eq_div_pow]
    apply Nat.div_lt_of_lt_mul
    have h3 : 2 ^ s * 2 ^ (k - s) = 2 ^ k := by
      rw [← pow_add]
      congr 1
      omega
    rw [h3]
    exact ha
  have hlow : a >>> s + 2 ^ (k - s) * (b % 2 ^ s) < 2 ^ k := by
    have hv : b % 2 ^ s < 2 ^ s := Nat.mod_lt _ (Nat.two_pow_pos s)
    have h3 : 2 ^ (k - s) * (b % 2 ^ s) ≤ 2 ^ (k - s) * (2 ^ s - 1) :=
      Nat.mul_le_mul_left _ (by omega)
    have h4 : 2 ^ (k - s) * (2 ^ s - 1) + 2 ^ (k - s) = 2 ^ (k - s) * 2 ^ s := by
      have h5 : 2 ^ s - 1 + 1 = 2 ^ s := by
        have := Nat.two_pow_pos s
        omega
      calc 2 ^ (k - s) * (2 ^ s - 1) + 2 ^ (k - s)
          = 2 ^ (k - s) * (2 ^ s - 1 + 1) := by ring
        _ = 2 ^ (k - s) * 2 ^ s := by rw [h5]
    have h6 : 0 < 2 ^ (k - s) := Nat.two_pow_pos _
    rw [← hpow]
    linarith
  have hlom : (a >>> s + 2 ^ (k - s) * (b % 2 ^ s)) &&& m = (a >>> s) &&& m := by
    have h0 := land_split (k - s) (a >>> s) (b % 2 ^ s) m 0 hlowa hm
    simpa using h0
  have h2 : ((a + 2 ^ k * b) >>> s) &&& (m + 2 ^ k * m)
      = ((a >>> s) &&& m) + 2 ^ k * ((b >>> s) &&& m) := by
    rw [hshift, hre, land_split k _ (b / 2 ^ s) m m hlow hmk, hlom,
      Nat.shiftRight_eq_div_pow b s]
  show ((a + 2 ^ k * b) &&& (m + 2 ^ k * m)) + (((a + 2 ^ k * b) >>> s) &&& (m + 2 ^ k * m))
      = ((a &&& m) + ((a >>> s) &&& m)) + 2 ^ k * ((b &&& m) + ((b >>> s) &&& m))
  rw [h1, h2]
  ring

/-- The first three SWAR stages, at the level of a single byte, compute
the byte's bit count (checked over all 256 bytes). -/
theorem g8_pc : ∀ b, b < 256 → stepF 0x0f 4 (stepF 0x33 2 (stepF 0x55 1 b)) = pc b := by
  decide

theorem pc_byte_le : ∀ b, b < 256 → pc b ≤ 8 := by decide

theorem stepF_def (m s x : Nat) : stepF m s x = (x &&& m) + ((x >>> s) &&& m) := rfl

/-- A 32-bit SWAR stage whose mask repeats one byte-level mask four
times acts independently on the four bytes of the word. -/
theorem stage_bytes (m s : Nat) (hs : 0 < s) (hs8 : s ≤ 8) (hm : m < 2 ^ (8 - s))
    (hm16 : m + 2 ^ 8 * m < 2 ^ (16 - s))
    (a0 a1 a2 a3 : Nat) (h0 : a0 < 256) (h1 : a1 < 256) (h2 : a2 < 256) (h3 : a3 < 256) :
    stepF ((m + 2 ^ 8 * m) + 2 ^ 16 * (m + 2 ^ 8 * m)) s (le32 a0 a1 a2 a3)
      = le32 (stepF m s a0) (stepF m s a1) (stepF m s a2) (stepF m s a3) := by
  have e1 : le32 a0 a1 a2 a3 = (a0 + 2 ^ 8 * a1) + 2 ^ 16 * (a2 + 2 ^ 8 * a3) := by
    unfold le32
    ring
  have halo : a0 + 2 ^ 8 * a1 < 2 ^ 16 := by omega
  rw [e1, stepF_split 16 s (m + 2 ^ 8 * m) _ _ hs (by omega) hm16 halo,
    stepF_split 8 s m a0 a1 hs hs8 hm (by omega),
    stepF_split 8 s m a2 a3 hs hs8 hm (by omega)]
  unfold le32
  ring

theorem pair8 (p q : Nat) (hp : p < 256) (hq : q < 256) :
    stepF 0xff 8 (p + 2 ^ 8 * q) = p + q := by
  have h255 : (0xff : Nat) = 2 ^ 8 - 1 := by norm_num
  unfold stepF
  have hand : (p + 2 ^ 8 * q) &&& 0xff = p := by
    rw [h255, Nat.and_pow_two_sub_one_eq_mod]
    omega
  have hshift : (p + 2 ^ 8 * q) >>> 8 = q := by
    rw [Nat.shiftRight_eq_div_pow]
    omega
  have hqq : q &&& 0xff = q % 256 := by
    rw [h255, Nat.and_pow_two_sub_one_eq_mod]
  rw [hand, hshift, hqq]
  omega

/-- Stage four of popc32 adds adjacent byte counts into 16-bit fields. -/
theorem stage4 (p0 p1 p2 p3 : Nat) (h0 : p0 < 256) (h1 : p1 < 256)
    (h2 : p2 < 256) (h3 : p3 < 256) :
    stepF MASK32_8S 8 (le32 p0 p1 p2 p3) = (p0 + p1) + 2 ^ 16 * (p2 + p3) := by
  have hM : MASK32_8S = 0xff + 2 ^ 16 * 0xff := by decide
  have e1 : le32 p0 p1 p2 p3 = (p0 + 2 ^ 8 * p1) + 2 ^ 16 * (p2 + 2 ^ 8 * p3) := by
    unfold le32
    ring
  rw [hM, e1, stepF_split 16 8 0xff _ _ (by omega) (by omega) (by norm_num) (by omega),
    pair8 p0 p1 h0 h1, pair8 p2 p3 h2 h3]

/-- popc32 of the little-endian word of four bytes is the sum of the
bytes' bit counts. -/
theorem popc32_le32 (b0 b1 b2 b3 : Nat) (h0 : b0 < 256) (h1 : b1 < 256)
    (h2 : b2 < 256) (h3 : b3 < 256) :
    popc32 (le32 b0 b1 b2 b3) = pc b0 + pc b1 + pc b2 + pc b3 := by
  have hb0 := stepF_le 0x55 1 b0
  have hb1 := stepF_le 0x55 1 b1
  have hb2 := stepF_le 0x55 1 b2
  have hb3 := stepF_le 0x55 1 b3
  have hc0 := stepF_le 0x33 2 (stepF 0x55 1 b0)
  have hc1 := stepF_le 0x33 2 (stepF 0x55 1 b1)
  have hc2 := stepF_le 0x33 2 (stepF 0x55 1 b2)
  have hc3 := stepF_le 0x33 2 (stepF 0x55 1 b3)
  have e1 : stepF MASK32_1S 1 (le32 b0 b1 b2 b3)
      = le32 (stepF 0x55 1 b0) (stepF 0x55 1 b1) (stepF 0x55 1 b2) (stepF 0x55 1 b3) := by
    rw [show MASK32_1S = (0x55 + 2 ^ 8 * 0x55) + 2 ^ 16 * (0x55 + 2 ^ 8 * 0x55) by decide]
    exact stage_bytes 0x55 1 (by omega) (by omega) (by norm_num) (by norm_num)
      b0 b1 b2 b3 h0 h1 h2 h3
  have e2 : stepF MASK32_2S 2 (le32 (stepF 0x55 1 b0) (stepF 0x55 1 b1)
        (stepF 0x55 1 b2) (stepF 0x55 1 b3))
      = le32 (stepF 0x33 2 (stepF 0x55 1 b0)) (stepF 0x33 2 (stepF 0x55 1 b1))
        (stepF 0x33 2 (stepF 0x55 1 b2)) (stepF 0x33 2 (stepF 0x55 1 b3)) := by
    rw [show MASK32_2S = (0x33 + 2 ^ 8 * 0x33) + 2 ^ 16 * (0x33 + 2 ^ 8 * 0x33) by decide]
    exact stage_bytes 0x33 2 (by omega) (by omega) (by norm_num) (by norm_num)
      _ _ _ _ (by omega) (by omega) (by omega) (by omega)
  have e3 : stepF MASK32_4S 4 (le32 (stepF 0x33 2 (stepF 0x55 1 b0))
        (stepF 0x33 2 (stepF 0x55 1 b1)) (stepF 0x33 2 (stepF 0x55 1 b2))
        (stepF 0x33 2 (stepF 0x55 1 b3)))
      = le32 (pc b0) (pc b1) (pc b2) (pc b3) := by
    rw [show MASK32_4S = (0x0f + 2 ^ 8 * 0x0f) + 2 ^ 16 * (0x0f + 2 ^ 8 * 0x0f) by decide]
    rw [stage_bytes 0x0f 4 (by omega) (by omega) (by norm_num) (by norm_num)
      _ _ _ _ (by omega) (by omega) (by omega) (by omega)]
    rw [g8_pc b0 h0, g8_pc b1 h1, g8_pc b2 h2, g8_pc b3 h3]
  have hp0 := pc_byte_le b0 h0
  have hp1 := pc_byte_le b1 h1
  have hp2 := pc_byte_le b2 h2
  have hp3 := pc_byte_le b3 h3
  have e4 : stepF MASK32_8S 8 (le32 (pc b0) (pc b1) (pc b2) (pc b3))
      = (pc b0 + pc b1) + 2 ^ 16 * (pc b2 + pc b3) :=
    stage4 _ _ _ _ (by omega) (by omega) (by omega) (by omega)
  have hle32lt : ∀ u0 u1 u2 u3 : Nat, u0 < 256 → u1 < 256 → u2 < 256 → u3 < 256 →
      le32 u0 u1 u2 u3 < 2 ^ 32 := by
    intro u0 u1 u2 u3 g0 g1 g2 g3
    unfold le32
    omega
  simp only [popc32]
  rw [← stepF_def MASK32_1S 1 (le32 b0 b1 b2 b3), e1,
    Nat.mod_eq_of_lt (hle32lt _ _ _ _ (by omega) (by omega) (by omega) (by omega))]
  rw [← stepF_def MASK32_2S 2 _, e2,
    Nat.mod_eq_of_lt (hle32lt _ _ _ _ (by omega) (by omega) (by omega) (by omega))]
  rw [← stepF_def MASK32_4S 4 _, e3,
    Nat.mod_eq_of_lt (hle32lt _ _ _ _ (by omega) (by omega) (by omega) (by omega))]
  rw [← stepF_def MASK32_8S 8 _, e4,
    Nat.mod_eq_of_lt (by omega : (pc b0 + pc b1) + 2 ^ 16 * (pc b2 + pc b3) < 2 ^ 32)]
  have hshift16 : ((pc b0 + pc b1) + 2 ^ 16 * (pc b2 + pc b3)) >>> 16 = pc b2 + pc b3 := by
    rw [Nat.shiftRight_eq_div_pow]
    omega
  rw [hshift16,
    Nat.mod_eq_of_lt (by omega : (pc b0 + pc b1) + 2 ^ 16 * (pc b2 + pc b3) + (pc b2 + pc b3) < 2 ^ 32),
    show MASK32_16S = 2 ^ 16 - 1 by decide, Nat.and_pow_two_sub_one_eq_mod]
  omega

/-- The byte loop of count_ones computes the bit count of each byte
(checked over all 256 bytes). -/
theorem popc8_pc : ∀ b, b < 256 → popc8 b = pc b := by decide

theorem map_popc8_sum (l : List Nat) (h : ∀ b ∈ l, b < 256) :
    (l.map popc8).sum = bitCount l := by
  induction l with
  | nil => rfl
  | cons a t ih =>
    have ha : a < 256 := h a (by simp)
    have ht : ∀ b ∈ t, b < 256 := fun b hb => h b (by simp [hb])
    simp only [List.map_cons, List.sum_cons, bitCount, popc8_pc a ha]
    rw [ih ht]
    rfl

/-- count_ones computes the bit count of the buffer, independently of
the word/byte chunking. -/
theorem count_ones_eq_bitCount (l : List Nat) (h : ∀ b ∈ l, b < 256) :
    count_ones l = bitCount l := by
  induction l using count_ones.induct with
  | case1 b0 b1 b2 b3 rest ih =>
    have h0 : b0 < 256 := h b0 (by simp)
    have h1 : b1 < 256 := h b1 (by simp)
    have h2 : b2 < 256 := h b2 (by simp)
    have h3 : b3 < 256 := h b3 (by simp)
    have hrest : ∀ b ∈ rest, b < 256 := fun b hb => h b (by simp [hb])
    show popc32 (le32 b0 b1 b2 b3) + count_ones rest = _
    rw [popc32_le32 b0 b1 b2 b3 h0 h1 h2 h3, ih hrest]
    simp only [bitCount, List.map_cons, List.sum_cons]
    omega
  | case2 rest hne =>
    have : count_ones rest = (rest.map popc8).sum := by
      match rest, hne with
      | [], _ => rfl
      | [a], _ => rfl
      | [a, b], _ => rfl
      | [a, b, c], _ => rfl
      | a :: b :: c :: d :: t, hne => exact absurd rfl (hne a b c d t)
    rw [this, map_popc8_sum rest h]

theorem bitCount_le (l : List Nat) (h : ∀ b ∈ l, b < 256) :
    bitCount l ≤ 8 * l.length := by
  induction l with
  | nil => simp [bitCount]
  | cons a t ih =>
    have ha := pc_byte_le a (h a (by simp))
    have ht := ih fun b hb => h b (by simp [hb])
    simp only [bitCount, List.map_cons, List.sum_cons, List.length_cons] at ht ⊢
    omega

theorem bitCount_eq_zero_iff (l : List Nat) (h : ∀ b ∈ l, b < 256) :
    bitCount l = 0 ↔ ∀ b ∈ l, b = 0 := by
  induction l with
  | nil => simp [bitCount]
  | cons a t ih =>
    have ha : a < 256 := h a (by simp)
    have ht := ih fun b hb => h b (by simp [hb])
    have hz : pc a = 0 ↔ a = 0 := by
      constructor
      · intro hp
        by_contra hne
        have : ∀ b, b < 256 → b ≠ 0 → 0 < pc b := by decide
        have := this a ha hne
        omega
      · intro hz
        subst hz
        rfl
    simp only [bitCount, List.map_cons, List.sum_cons, List.mem_cons]
    constructor
    · intro hsum
      have h1 : pc a = 0 := by omega
      have h2 : bitCount t = 0 := by
        simp only [bitCount]
        omega
      intro b hb
      rcases hb with hb | hb
      · subst hb
        exact hz.mp h1
      · exact (ht.mp h2) b hb
    · intro hall
      have h1 : a = 0 := hall a (Or.inl rfl)
      have h2 : bitCount t = 0 := ht.mpr fun b hb => hall b (Or.inr hb)
      subst h1
      simp only [bitCount] at h2
      simp [pc_zero, h2]

/-! ### Correctness of is_buf_const -/

theorem val32_eq (val : Nat) (hv : val < 256) : val32 val = le32 val val val val := by
  unfold val32
  have h1 : val ||| val <<< 8 = 2 ^ 8 * val + val := by
    rw [Nat.shiftLeft_eq, Nat.or_comm, Nat.mul_comm val (2 ^ 8)]
    exact (Nat.mul_add_lt_is_or (by omega) val).symm
  have h1lt : 2 ^ 8 * val + val < 2 ^ 32 := by omega
  have h2 : (2 ^ 8 * val + val) ||| (2 ^ 8 * val + val) <<< 16
      = 2 ^ 16 * (2 ^ 8 * val + val) + (2 ^ 8 * val + val) := by
    rw [Nat.shiftLeft_eq, Nat.or_comm, Nat.mul_comm _ (2 ^ 16)]
    exact (Nat.mul_add_lt_is_or (by omega) _).symm
  simp only [h1, Nat.mod_eq_of_lt h1lt, h2]
  unfold le32
  have hlt : 2 ^ 16 * (2 ^ 8 * val + val) + (2 ^ 8 * val + val) < 2 ^ 32 := by omega
  rw [Nat.mod_eq_of_lt hlt]
  ring

theorem go_short (v32 val : Nat) (l : List Nat) (hl : l.length ≤ 4) :
    is_buf_const_go v32 val l = l.all fun b => b == val := by
  match l, hl with
  | [], _ => rfl
  | [a], _ => rfl
  | [a, b], _ => rfl
  | [a, b, c], _ => rfl
  | [a, b, c, d], _ => rfl
  | a :: b :: c :: d :: e :: r, hl =>
    simp only [List.length_cons] at hl
    omega

theorem is_buf_const_iff_aux (val : Nat) (hv : val < 256) :
    ∀ n l, l.length ≤ n → (∀ b ∈ l, b < 256) →
      (is_buf_const l val = true ↔ ∀ b ∈ l, b = val) := by
  intro n
  induction n with
  | zero =>
    intro l hl _
    have : l = [] := List.eq_nil_of_length_eq_zero (by omega)
    subst this
    simp [is_buf_const, is_buf_const_go]
  | succ n ih =>
    intro l hl hb
    match l with
    | [] => simp [is_buf_const, is_buf_const_go]
    | [a] =>
      simp [is_buf_const, go_short, List.all_eq_true, beq_iff_eq]
    | [a, b] =>
      simp [is_buf_const, go_short, List.all_eq_true, beq_iff_eq]
    | [a, b, c] =>
      simp [is_buf_const, go_short, List.all_eq_true, beq_iff_eq]
    | [a, b, c, d] =>
      simp [is_buf_const, go_short, List.all_eq_true, beq_iff_eq]
    | a :: b :: c :: d :: e :: r =>
      show (if le32 a b c d == val32 val then is_buf_const_go (val32 val) val (e :: r)
        else false) = true ↔ _
      have hlen : (e :: r).length ≤ n := by
        simp only [List.length_cons] at hl ⊢
        omega
      have hbr : ∀ x ∈ e :: r, x < 256 := fun x hx => hb x (by simp at hx ⊢; tauto)
      have ha : a < 256 := hb a (by simp)
      have hbb : b < 256 := hb b (by simp)
      have hc : c < 256 := hb c (by simp)
      have hd : d < 256 := hb d (by simp)
      rw [val32_eq val hv]
      have hrec : is_buf_const_go (le32 val val val val) val (e :: r)
          = is_buf_const (e :: r) val := by
        unfold is_buf_const
        rw [val32_eq val hv]
      by_cases hw : le32 a b c d = le32 val val val val
      · have ea : a = val := by
          unfold le32 at hw
          omega
        have eb : b = val := by
          unfold le32 at hw
          omega
        have ec : c = val := by
          unfold le32 at hw
          omega
        have ed : d = val := by
          unfold le32 at hw
          omega
        rw [if_pos (by simp [hw]), hrec, ih (e :: r) hlen hbr]
        constructor
        · intro hall x hx
          simp only [List.mem_cons] at hx
          rcases hx with h | h | h | h | h
          · rw [h, ea]
          · rw [h, eb]
          · rw [h, ec]
          · rw [h, ed]
          · exact hall x (by simp [h])
        · intro hall x hx
          exact hall x (by simp at hx ⊢; tauto)
      · rw [if_neg (by simp [hw])]
        simp only [Bool.false_eq_true, false_iff]
        intro hall
        apply hw
        have ea : a = val := hall a (by simp)
        have eb : b = val := hall b (by simp)
        have ec : c = val := hall c (by simp)
        have ed : d = val := hall d (by simp)
        rw [ea, eb, ec, ed]

theorem is_buf_const_iff_all (l : List Nat) (val : Nat) (hb : ∀ b ∈ l, b < 256)
    (hv : val < 256) : is_buf_const l val = true ↔ ∀ b ∈ l, b = val :=
  is_buf_const_iff_aux val hv l.length l (le_refl _) hb

/-! ### Claim theorems: the pure helpers (C2, C3, C4) -/

/-- Claim C2: for every byte buffer, count_ones equals the number of set
bits in the buffer (hence lies in [0, len*8]), independently of the
internal word/byte chunking, and count_ones of a length-0 buffer is 0. -/
theorem count_ones_correct (l : List Nat) (h : ∀ b ∈ l, b < 256) :
    count_ones l = bitCount l ∧ count_ones l ≤ l.length * 8 ∧
      count_ones ([] : List Nat) = 0 := by
  refine ⟨count_ones_eq_bitCount l h, ?_, rfl⟩
  rw [count_ones_eq_bitCount l h]
  have := bitCount_le l h
  omega

theorem count_ones_correct_witness :
    (∀ b ∈ [255, 1, 2, 3, 171], b < 256) ∧
      (count_ones [255, 1, 2, 3, 171] = bitCount [255, 1, 2, 3, 171] ∧
        count_ones [255, 1, 2, 3, 171] ≤ [255, 1, 2, 3, 171].length * 8 ∧
        count_ones ([] : List Nat) = 0) :=
  ⟨by decide, count_ones_correct [255, 1, 2, 3, 171] (by decide)⟩

/-- Claim C3: valid_hamming_weight returns true iff the buffer's set-bit
count is 0 or exactly half the bit length (len*8/2 in exact integer
arithmetic); every other count returns false. -/
theorem valid_hamming_weight_correct (l : List Nat) (h : ∀ b ∈ l, b < 256) :
    valid_hamming_weight l = true ↔
      (bitCount l = 0 ∨ bitCount l = l.length * 8 / 2) := by
  unfold valid_hamming_weight
  rw [count_ones_eq_bitCount l h]
  simp [Bool.or_eq_true, beq_iff_eq]

theorem valid_hamming_weight_correct_witness :
    (∀ b ∈ [0xFF, 0xFF, 0, 0], b < 256) ∧
      (valid_hamming_weight [0xFF, 0xFF, 0, 0] = true ↔
        (bitCount [0xFF, 0xFF, 0, 0] = 0 ∨
          bitCount [0xFF, 0xFF, 0, 0] = [0xFF, 0xFF, 0, 0].length * 8 / 2)) :=
  ⟨by decide, valid_hamming_weight_correct [0xFF, 0xFF, 0, 0] (by decide)⟩

/-- Claim C4: is_buf_const returns true iff every byte of the buffer
equals the given value (vacuously true for size 0), independently of the
word-at-a-time versus byte-at-a-time comparison split. -/
theorem is_buf_const_correct (l : List Nat) (val : Nat) (hb : ∀ b ∈ l, b < 256)
    (hv : val < 256) : is_buf_const l val = true ↔ ∀ b ∈ l, b = val :=
  is_buf_const_iff_all l val hb hv

theorem is_buf_const_correct_witness :
    ((∀ b ∈ [7, 7, 7, 7, 7, 7], b < 256) ∧ 7 < 256) ∧
      (is_buf_const [7, 7, 7, 7, 7, 7] 7 = true ↔ ∀ b ∈ [7, 7, 7, 7, 7, 7], b = 7) :=
  ⟨⟨by decide, by decide⟩, is_buf_const_correct [7, 7, 7, 7, 7, 7] 7 (by decide) (by decide)⟩

/-! ### Claim theorems: the endpoint-ID derivation (C1, C9) -/

/-- A small concrete hash with 32-byte digests, used to evaluate the
derivation chain at concrete inputs. -/
def toyHash (xs : List Nat) : List Nat :=
  (xs.foldr (fun a b => a + b) 0 % 256) :: (xs.length % 256) :: List.replicate 30 0

/-- A provisioned secret satisfying the precondition of the deriver:
non-zero with Hamming weight exactly 128. -/
def secretA : List Nat := List.replicate 16 0xFF ++ List.replicate 16 0x00

/-- secretA with the single bit 0 of byte 1 flipped. -/
def secretB : List Nat :=
  0xFF :: 0xFE :: (List.replicate 14 0xFF ++ List.replicate 16 0x00)

/-- Claim C1 (code bug): on a secret meeting the stated precondition
(non-zero, Hamming weight 128), the value the code derives differs from
the spec's three-session chain Y1 = Hash(secret[0:16] XOR 0x3D*16),
Z0 = Hash(Y1 || 0x01*32), EP_UID = Hash(Z0): the code passes length 1
to hash_update for each 32-bit word, so only 4 bytes reach the first
session and only 8 constant bytes reach the second. -/
theorem derive_deviates_from_spec_chain :
    bitCount secretA = 128 ∧ ¬(∀ b ∈ secretA, b = 0) ∧
      derive_endpoint_id toyHash secretA ≠ derive_endpoint_id_spec toyHash secretA := by
  decide

theorem xor_mod_two_pow (x y k : Nat) :
    (x ^^^ y) % 2 ^ k = (x % 2 ^ k) ^^^ (y % 2 ^ k) := by
  apply Nat.eq_of_testBit_eq
  intro j
  rw [Nat.testBit_mod_two_pow, Nat.testBit_xor, Nat.testBit_xor,
    Nat.testBit_mod_two_pow, Nat.testBit_mod_two_pow]
  by_cases hj : j < k <;> simp [hj]

theorem fed_byte (c0 c1 c2 c3 : Nat) :
    (le32 c0 c1 c2 c3 ^^^ 0x3d3d3d3d) % 256 = (c0 % 256) ^^^ 0x3d := by
  have h := xor_mod_two_pow (le32 c0 c1 c2 c3) 0x3d3d3d3d 8
  have h1 : le32 c0 c1 c2 c3 % 2 ^ 8 = c0 % 2 ^ 8 := by
    unfold le32
    omega
  have h2 : (0x3d3d3d3d : Nat) % 2 ^ 8 = 0x3d := by norm_num
  have h256 : (256 : Nat) = 2 ^ 8 := by norm_num
  rw [h256, h, h1, h2]

/-- Claim C9 (amended): the code's derivation is a pure deterministic
function of the secret bytes at offsets 0, 4, 8 and 12 alone - the only
bytes its hash sessions consume - so any two secrets agreeing there
(identical secrets in particular) give identical outputs. -/
theorem derive_depends_on_four_bytes (H : List Nat → List Nat) (s t : List Nat)
    (h0 : s.getD 0 0 = t.getD 0 0) (h4 : s.getD 4 0 = t.getD 4 0)
    (h8 : s.getD 8 0 = t.getD 8 0) (h12 : s.getD 12 0 = t.getD 12 0) :
    derive_endpoint_id H s = derive_endpoint_id H t := by
  unfold derive_endpoint_id
  suffices h : derive_fed1 s = derive_fed1 t by rw [h]
  unfold derive_fed1 wordAt
  simp only [Nat.mul_zero, Nat.mul_one, Nat.zero_add]
  rw [fed_byte, fed_byte, fed_byte, fed_byte,
    fed_byte, fed_byte, fed_byte, fed_byte]
  rw [h0, h4, h8, h12]

theorem derive_depends_on_four_bytes_witness :
    (secretA.getD 0 0 = secretB.getD 0 0 ∧ secretA.getD 4 0 = secretB.getD 4 0 ∧
      secretA.getD 8 0 = secretB.getD 8 0 ∧ secretA.getD 12 0 = secretB.getD 12 0) ∧
      derive_endpoint_id toyHash secretA = derive_endpoint_id toyHash secretB :=
  ⟨⟨by decide, by decide, by decide, by decide⟩,
    derive_depends_on_four_bytes toyHash secretA secretB
      (by decide) (by decide) (by decide) (by decide)⟩

/-- Claim C9 (counterexample): flipping a single bit of a valid secret
(bit 0 of byte 1) leaves the derived endpoint identifier unchanged, for
a hash under which the derivation is injective in its fed bytes; the
flipped byte simply never reaches the hash. -/
theorem one_bit_flip_leaves_output_unchanged :
    bitCount secretA = 128 ∧ ¬(∀ b ∈ secretA, b = 0) ∧
      secretA ≠ secretB ∧ secretA.getD 1 0 ^^^ secretB.getD 1 0 = 1 ∧
      (∀ i < 32, i ≠ 1 → secretA.getD i 0 = secretB.getD i 0) ∧
      derive_endpoint_id toyHash secretA = derive_endpoint_id toyHash secretB := by
  decide

/-! ### Branch-result lemmas for efuse_init and get_endpoint_id -/

theorem ge_noims (sim : Bool) (H : List Nat → List Nat) (ims : List Nat) (le0 : BRE)
    (hz : is_buf_const (ims.take IMS_MEANINGFUL_LENGTH) 0 = true) :
    get_endpoint_id sim H ims le0
      = { ret := false, quad := 0, lastError := le0, events := [Event.readIms] } := by
  simp only [get_endpoint_id]
  rw [if_neg (by simp [hz])]

theorem ge_badims (sim : Bool) (H : List Nat → List Nat) (ims : List Nat) (le0 : BRE)
    (hnz : is_buf_const (ims.take IMS_MEANINGFUL_LENGTH) 0 = false)
    (hvw : valid_hamming_weight (ims.take IMS_MEANINGFUL_LENGTH) = false) :
    get_endpoint_id sim H ims le0
      = { ret := false, quad := 0, lastError := BRE.EFUSE_BAD_IMS,
          events := [Event.readIms] } := by
  simp only [get_endpoint_id]
  rw [if_pos hnz, if_pos hvw]

theorem efuse_ecc_result (hw : Hw) (le0 : BRE) (h : hw.eccerror &&& hw.eccMask ≠ 0) :
    efuse_init hw le0
      = { ret := -1, lastError := BRE.EFUSE_ECC, events := [Event.readEcc] } := by
  simp only [efuse_init]
  rw [if_pos h]

theorem efuse_vid_result (hw : Hw) (le0 : BRE) (hE : hw.eccerror &&& hw.eccMask = 0)
    (hV : valid_hamming_weight (le4 hw.vid) = false) :
    efuse_init hw le0
      = { ret := -1, lastError := BRE.EFUSE_BAD_ARA_VID,
          events := [Event.readEcc, Event.readVid] } := by
  simp only [efuse_init]
  rw [if_neg (fun hc => hc hE), if_pos hV]

theorem efuse_pid_result (hw : Hw) (le0 : BRE) (hE : hw.eccerror &&& hw.eccMask = 0)
    (hV : valid_hamming_weight (le4 hw.vid) = true)
    (hP : valid_hamming_weight (le4 hw.pid) = false) :
    efuse_init hw le0
      = { ret := -1, lastError := BRE.EFUSE_BAD_ARA_PID,
          events := [Event.readEcc, Event.readVid, Event.readPid] } := by
  simp only [efuse_init]
  rw [if_neg (fun hc => hc hE), if_neg (by simp [hV]), if_pos hP]

theorem efuse_noims_result (hw : Hw) (hE : hw.eccerror &&& hw.eccMask = 0)
    (hV : valid_hamming_weight (le4 hw.vid) = true)
    (hP : valid_hamming_weight (le4 hw.pid) = true)
    (hz : is_buf_const (hw.ims.take IMS_MEANINGFUL_LENGTH) 0 = true) :
    efuse_init hw BRE.OK
      = { ret := 0, lastError := BRE.OK,
          events := [Event.readEcc, Event.readVid, Event.readPid, Event.readIms] } := by
  simp only [efuse_init]
  rw [if_neg (fun hc => hc hE), if_neg (by simp [hV]), if_neg (by simp [hP]),
    ge_noims hw.sim hw.hash hw.ims BRE.OK hz]
  rfl

theorem efuse_badims_result (hw : Hw) (hE : hw.eccerror &&& hw.eccMask = 0)
    (hV : valid_hamming_weight (le4 hw.vid) = true)
    (hP : valid_hamming_weight (le4 hw.pid) = true)
    (hnz : is_buf_const (hw.ims.take IMS_MEANINGFUL_LENGTH) 0 = false)
    (hvw : valid_hamming_weight (hw.ims.take IMS_MEANINGFUL_LENGTH) = false) :
    efuse_init hw BRE.OK
      = { ret := -1, lastError := BRE.EFUSE_BAD_IMS,
          events := [Event.readEcc, Event.readVid, Event.readPid, Event.readIms] } := by
  simp only [efuse_init]
  rw [if_neg (fun hc => hc hE), if_neg (by simp [hV]), if_neg (by simp [hP]),
    ge_badims hw.sim hw.hash hw.ims BRE.OK hnz hvw]
  rfl

/-! ### Claim theorems: the efuse_init state machine (C5-C8, C10) -/

/-- Claim C5: when the ECC-error status has the error bit set,
efuse_init returns -1, the last error is the ECC code, and no identity
field and no secret field is read. -/
theorem efuse_init_ecc_error_stops (hw : Hw) (h : hw.eccerror &&& hw.eccMask ≠ 0) :
    (efuse_init hw BRE.OK).ret = -1 ∧
      (efuse_init hw BRE.OK).lastError = BRE.EFUSE_ECC ∧
      Event.readVid ∉ (efuse_init hw BRE.OK).events ∧
      Event.readPid ∉ (efuse_init hw BRE.OK).events ∧
      Event.readIms ∉ (efuse_init hw BRE.OK).events := by
  rw [efuse_ecc_result hw BRE.OK h]
  exact ⟨rfl, rfl, by decide, by decide, by decide⟩

def hwEcc : Hw :=
  { eccerror := 1, eccMask := 1, vid := 0, pid := 0, ims := List.replicate 35 0,
    attrWriteRc := fun _ _ => 0, attrL := 0xD026, attrH := 0xD027, sim := false,
    hash := toyHash }

theorem efuse_init_ecc_error_stops_witness :
    hwEcc.eccerror &&& hwEcc.eccMask ≠ 0 ∧
      ((efuse_init hwEcc BRE.OK).ret = -1 ∧
        (efuse_init hwEcc BRE.OK).lastError = BRE.EFUSE_ECC ∧
        Event.readVid ∉ (efuse_init hwEcc BRE.OK).events ∧
        Event.readPid ∉ (efuse_init hwEcc BRE.OK).events ∧
        Event.readIms ∉ (efuse_init hwEcc BRE.OK).events) :=
  ⟨by decide, efuse_init_ecc_error_stops hwEcc (by decide)⟩

/-- Claim C6: with the ECC check passing, a vendor-ID field failing the
Hamming check stops efuse_init with the vendor-specific code before the
product ID is even read; the product ID is checked only after the vendor
ID passes, and its failure yields the distinct product code. -/
theorem efuse_init_identity_order (hw hw2 : Hw)
    (hE : hw.eccerror &&& hw.eccMask = 0)
    (hV : valid_hamming_weight (le4 hw.vid) = false)
    (hE2 : hw2.eccerror &&& hw2.eccMask = 0)
    (hV2 : valid_hamming_weight (le4 hw2.vid) = true)
    (hP2 : valid_hamming_weight (le4 hw2.pid) = false) :
    (efuse_init hw BRE.OK).ret = -1 ∧
      (efuse_init hw BRE.OK).lastError = BRE.EFUSE_BAD_ARA_VID ∧
      Event.readPid ∉ (efuse_init hw BRE.OK).events ∧
      (efuse_init hw2 BRE.OK).ret = -1 ∧
      (efuse_init hw2 BRE.OK).lastError = BRE.EFUSE_BAD_ARA_PID ∧
      BRE.EFUSE_BAD_ARA_VID ≠ BRE.EFUSE_BAD_ARA_PID := by
  rw [efuse_vid_result hw BRE.OK hE hV, efuse_pid_result hw2 BRE.OK hE2 hV2 hP2]
  exact ⟨rfl, rfl, by decide, rfl, rfl, by decide⟩

def hwBadVid : Hw :=
  { eccerror := 0, eccMask := 1, vid := 7, pid := 0, ims := List.replicate 35 0,
    attrWriteRc := fun _ _ => 0, attrL := 0xD026, attrH := 0xD027, sim := false,
    hash := toyHash }

def hwBadPid : Hw :=
  { eccerror := 0, eccMask := 1, vid := 0x0000FFFF, pid := 7,
    ims := List.replicate 35 0, attrWriteRc := fun _ _ => 0, attrL := 0xD026,
    attrH := 0xD027, sim := false, hash := toyHash }

theorem efuse_init_identity_order_witness :
    (hwBadVid.eccerror &&& hwBadVid.eccMask = 0 ∧
      valid_hamming_weight (le4 hwBadVid.vid) = false ∧
      hwBadPid.eccerror &&& hwBadPid.eccMask = 0 ∧
      valid_hamming_weight (le4 hwBadPid.vid) = true ∧
      valid_hamming_weight (le4 hwBadPid.pid) = false) ∧
      ((efuse_init hwBadVid BRE.OK).ret = -1 ∧
        (efuse_init hwBadVid BRE.OK).lastError = BRE.EFUSE_BAD_ARA_VID ∧
        Event.readPid ∉ (efuse_init hwBadVid BRE.OK).events ∧
        (efuse_init hwBadPid BRE.OK).ret = -1 ∧
        (efuse_init hwBadPid BRE.OK).lastError = BRE.EFUSE_BAD_ARA_PID ∧
        BRE.EFUSE_BAD_ARA_VID ≠ BRE.EFUSE_BAD_ARA_PID) :=
  ⟨⟨by decide, by decide, by decide, by decide, by decide⟩,
    efuse_init_identity_order hwBadVid hwBadPid (by decide) (by decide)
      (by decide) (by decide) (by decide)⟩

/-- Claim C7: with ECC and identity checks passing and the 32 meaningful
secret bytes all zero, efuse_init succeeds with last error still OK, no
endpoint identifier is derived and no attribute write is attempted. -/
theorem efuse_init_not_provisioned (hw : Hw)
    (hE : hw.eccerror &&& hw.eccMask = 0)
    (hV : valid_hamming_weight (le4 hw.vid) = true)
    (hP : valid_hamming_weight (le4 hw.pid) = true)
    (hz : is_buf_const (hw.ims.take IMS_MEANINGFUL_LENGTH) 0 = true) :
    (efuse_init hw BRE.OK).ret = 0 ∧
      (efuse_init hw BRE.OK).lastError = BRE.OK ∧
      (∀ a v, Event.writeAttr a v ∉ (efuse_init hw BRE.OK).events) ∧
      (get_endpoint_id hw.sim hw.hash hw.ims BRE.OK).ret = false := by
  rw [efuse_noims_result hw hE hV hP hz, ge_noims hw.sim hw.hash hw.ims BRE.OK hz]
  refine ⟨rfl, rfl, ?_, rfl⟩
  intro a v
  simp

def hwNoIms : Hw :=
  { eccerror := 0, eccMask := 1, vid := 0x0000FFFF, pid := 0x00FF00FF,
    ims := List.replicate 35 0, attrWriteRc := fun _ _ => 0, attrL := 0xD026,
    attrH := 0xD027, sim := false, hash := toyHash }

theorem efuse_init_not_provisioned_witness :
    (hwNoIms.eccerror &&& hwNoIms.eccMask = 0 ∧
      valid_hamming_weight (le4 hwNoIms.vid) = true ∧
      valid_hamming_weight (le4 hwNoIms.pid) = true ∧
      is_buf_const (hwNoIms.ims.take IMS_MEANINGFUL_LENGTH) 0 = true) ∧
      ((efuse_init hwNoIms BRE.OK).ret = 0 ∧
        (efuse_init hwNoIms BRE.OK).lastError = BRE.OK ∧
        (∀ a v, Event.writeAttr a v ∉ (efuse_init hwNoIms BRE.OK).events) ∧
        (get_endpoint_id hwNoIms.sim hwNoIms.hash hwNoIms.ims BRE.OK).ret = false) :=
  ⟨⟨by decide, by decide, by decide, by decide⟩,
    efuse_init_not_provisioned hwNoIms (by decide) (by decide) (by decide) (by decide)⟩

/-- Claim C8: with ECC and identity checks passing and a non-zero secret
whose set-bit count is neither 0 nor 128, efuse_init fails with the
distinct bad-secret code and no attribute write is attempted. -/
theorem efuse_init_bad_ims_fails (hw : Hw)
    (hb : ∀ b ∈ hw.ims, b < 256) (hlen : 32 ≤ hw.ims.length)
    (hE : hw.eccerror &&& hw.eccMask = 0)
    (hV : valid_hamming_weight (le4 hw.vid) = true)
    (hP : valid_hamming_weight (le4 hw.pid) = true)
    (h0 : count_ones (hw.ims.take IMS_MEANINGFUL_LENGTH) ≠ 0)
    (h128 : count_ones (hw.ims.take IMS_MEANINGFUL_LENGTH) ≠ 128) :
    (efuse_init hw BRE.OK).ret = -1 ∧
      (efuse_init hw BRE.OK).lastError = BRE.EFUSE_BAD_IMS ∧
      (∀ a v, Event.writeAttr a v ∉ (efuse_init hw BRE.OK).events) ∧
      BRE.EFUSE_BAD_IMS ≠ BRE.OK := by
  have hl32 : (hw.ims.take IMS_MEANINGFUL_LENGTH).length = 32 := by
    rw [List.length_take]
    show min 32 hw.ims.length = 32
    omega
  have hbt : ∀ b ∈ hw.ims.take IMS_MEANINGFUL_LENGTH, b < 256 :=
    fun b hbm => hb b (List.take_subset _ _ hbm)
  have hvw : valid_hamming_weight (hw.ims.take IMS_MEANINGFUL_LENGTH) = false := by
    unfold valid_hamming_weight
    rw [hl32]
    have he : (32 * 8 / 2 : Nat) = 128 := by norm_num
    rw [he]
    simp [Bool.or_eq_false_iff, beq_eq_false_iff_ne, h0, h128]
  have hnz : is_buf_const (hw.ims.take IMS_MEANINGFUL_LENGTH) 0 = false := by
    cases hc : is_buf_const (hw.ims.take IMS_MEANINGFUL_LENGTH) 0 with
    | false => rfl
    | true =>
      exfalso
      have hall := (is_buf_const_iff_all _ 0 hbt (by omega)).mp hc
      have hz0 : bitCount (hw.ims.take IMS_MEANINGFUL_LENGTH) = 0 :=
        (bitCount_eq_zero_iff _ hbt).mpr hall
      have hco := count_ones_eq_bitCount _ hbt
      omega
  rw [efuse_badims_result hw hE hV hP hnz hvw]
  refine ⟨rfl, rfl, ?_, by decide⟩
  intro a v
  simp

def hwBadIms : Hw :=
  { eccerror := 0, eccMask := 1, vid := 0x0000FFFF, pid := 0x00FF00FF,
    ims := List.replicate 35 1, attrWriteRc := fun _ _ => 0, attrL := 0xD026,
    attrH := 0xD027, sim := false, hash := toyHash }

theorem efuse_init_bad_ims_fails_witness :
    ((∀ b ∈ hwBadIms.ims, b < 256) ∧ 32 ≤ hwBadIms.ims.length ∧
      hwBadIms.eccerror &&& hwBadIms.eccMask = 0 ∧
      valid_hamming_weight (le4 hwBadIms.vid) = true ∧
      valid_hamming_weight (le4 hwBadIms.pid) = true ∧
      count_ones (hwBadIms.ims.take IMS_MEANINGFUL_LENGTH) ≠ 0 ∧
      count_ones (hwBadIms.ims.take IMS_MEANINGFUL_LENGTH) ≠ 128) ∧
      ((efuse_init hwBadIms BRE.OK).ret = -1 ∧
        (efuse_init hwBadIms BRE.OK).lastError = BRE.EFUSE_BAD_IMS ∧
        (∀ a v, Event.writeAttr a v ∉ (efuse_init hwBadIms BRE.OK).events) ∧
        BRE.EFUSE_BAD_IMS ≠ BRE.OK) :=
  ⟨⟨by decide, by decide, by decide, by decide, by decide, by decide, by decide⟩,
    efuse_init_bad_ims_fails hwBadIms (by decide) (by decide) (by decide)
      (by decide) (by decide) (by decide) (by decide)⟩

/-- Claim C10: get_endpoint_id zeroes the caller's 64-bit output at
entry, so whenever it returns false (secret absent or invalid) the
output parameter is exactly 0. -/
theorem get_endpoint_id_false_gives_zero (sim : Bool) (H : List Nat → List Nat)
    (ims : List Nat) (le0 : BRE)
    (h : (get_endpoint_id sim H ims le0).ret = false) :
    (get_endpoint_id sim H ims le0).quad = 0 := by
  simp only [get_endpoint_id] at h ⊢
  by_cases h1 : is_buf_const (ims.take IMS_MEANINGFUL_LENGTH) 0 = false
  · rw [if_pos h1] at h ⊢
    by_cases h2 : valid_hamming_weight (ims.take IMS_MEANINGFUL_LENGTH) = false
    · rw [if_pos h2] at h ⊢
    · rw [if_neg h2] at h ⊢
      exact absurd h (by simp)
  · rw [if_neg h1] at h ⊢

theorem get_endpoint_id_false_gives_zero_witness :
    (get_endpoint_id false toyHash (List.replicate 35 0) BRE.OK).ret = false ∧
      (get_endpoint_id false toyHash (List.replicate 35 0) BRE.OK).quad = 0 :=
  ⟨by decide, get_endpoint_id_false_gives_zero false toyHash (List.replicate 35 0)
    BRE.OK (by decide)⟩

end Bootrom
